import Mathlib

/-!
Verification development for the Delta-Utils C library
(container, hash table, Base64 codec, MD5 digest, string helpers).

Each C function used by the properties below is embedded shallowly:
machine integers become `Nat` with explicit `% 2^w` where the C code
performs 32-bit arithmetic, byte buffers become `List Nat`, C strings
become `List Char`, and fallible allocation is an explicit `Bool`
parameter ("did realloc/malloc succeed").
-/

set_option maxRecDepth 100000

set_option linter.unusedVariables false

namespace DU

/-- The modulus of C `uint32_t` arithmetic, 2^32. -/
def U32 : Nat := 4294967296

/-! ## Base64 (deltautils.h `DU_BASE64` and src/utils/base64.c)

The repository carries two copies of the encoder:
`b64Encode` in `deltautils.h` masks every 6-bit group with `0xF`,
while `b64encode` in `src/utils/base64.c` masks with `0b111111`.
Both are embedded below, sharing the tables. -/

/-- The encoding alphabet `b64_et` (both copies use the same table). -/
def b64_et : List Char :=
  "ABCDEFGHIJKLMNOPQRSTUVWXYZabcdefghijklmnopqrstuvwxyz0123456789+/".toList

/-- The decoding table `b64_dt`: position of `c` in the alphabet.
In the C array every character not listed reads as `0`; `indexOf`
returns 64 for such characters, so we map that case back to `0`. -/
def b64_dt (c : Char) : Nat :=
  let i := b64_et.indexOf c
  if i < 64 then i else 0

/-- Encoder `b64Encode` from `deltautils.h` (lines 315-348): the main `while (i+2 < len)`
loop consumes 3-byte groups, then the `rem == 1` / `rem == 2` tails pad with
`=`.  Each output index is `b64_et[(g >> k) & 0xF]`, exactly as the header
writes it. -/
def b64Encode : List Nat → List Char
  | b1 :: b2 :: b3 :: rest =>
    let g := (b1 <<< 16) ||| (b2 <<< 8) ||| b3
    b64_et.getD ((g >>> 18) &&& 0xF) 'A' ::
    b64_et.getD ((g >>> 12) &&& 0xF) 'A' ::
    b64_et.getD ((g >>> 6) &&& 0xF) 'A' ::
    b64_et.getD (g &&& 0xF) 'A' ::
    b64Encode rest
  | [b1, b2] =>
    let g := (b1 <<< 16) ||| (b2 <<< 8)
    [b64_et.getD ((g >>> 18) &&& 0xF) 'A',
     b64_et.getD ((g >>> 12) &&& 0xF) 'A',
     b64_et.getD ((g >>> 6) &&& 0xF) 'A', '=']
  | [b1] =>
    let g := b1 <<< 16
    [b64_et.getD ((g >>> 18) &&& 0xF) 'A',
     b64_et.getD ((g >>> 12) &&& 0xF) 'A', '=', '=']
  | [] => []

/-- Encoder `b64encode` from `src/utils/base64.c` (lines 33-66): identical loop
structure, but each group is masked with `0b111111`. -/
def b64encode : List Nat → List Char
  | b1 :: b2 :: b3 :: rest =>
    let g := (b1 <<< 16) ||| (b2 <<< 8) ||| b3
    b64_et.getD ((g >>> 18) &&& 0x3F) 'A' ::
    b64_et.getD ((g >>> 12) &&& 0x3F) 'A' ::
    b64_et.getD ((g >>> 6) &&& 0x3F) 'A' ::
    b64_et.getD (g &&& 0x3F) 'A' ::
    b64encode rest
  | [b1, b2] =>
    let g := (b1 <<< 16) ||| (b2 <<< 8)
    [b64_et.getD ((g >>> 18) &&& 0x3F) 'A',
     b64_et.getD ((g >>> 12) &&& 0x3F) 'A',
     b64_et.getD ((g >>> 6) &&& 0x3F) 'A', '=']
  | [b1] =>
    let g := b1 <<< 16
    [b64_et.getD ((g >>> 18) &&& 0x3F) 'A',
     b64_et.getD ((g >>> 12) &&& 0x3F) 'A', '=', '=']
  | [] => []

/-- Decoder `b64Decode` from `deltautils.h` (lines 350-369): consumes 4 characters
per iteration; `=` contributes 0 value bits, and a trailing `=` in position
3 or 4 suppresses the corresponding output byte.  (The C loop runs while
`i < len` in steps of 4; a leftover block shorter than 4 characters never
occurs on encoder output, and the embedding stops there.) -/
def b64Decode : List Char → List Nat
  | c1 :: c2 :: c3 :: c4 :: rest =>
    let v1 := if c1 = '=' then 0 else b64_dt c1
    let v2 := if c2 = '=' then 0 else b64_dt c2
    let v3 := if c3 = '=' then 0 else b64_dt c3
    let v4 := if c4 = '=' then 0 else b64_dt c4
    let g := (v1 <<< 18) ||| (v2 <<< 12) ||| (v3 <<< 6) ||| v4
    ((g >>> 16) &&& 0xFF) ::
    ((if c3 ≠ '=' then [(g >>> 8) &&& 0xFF] else []) ++
     (if c4 ≠ '=' then [g &&& 0xFF] else []) ++
     b64Decode rest)
  | _ => []

/-! ## MD5 (deltautils.h `DU_MD5`, lines 373-622)

32-bit register arithmetic is `Nat` reduced `% U32`; `~x` on a
32-bit register is `x ^^^ 0xFFFFFFFF`. -/

/-- The additive-constant table `T[64]`. -/
def md5T : List Nat :=
  [0xd76aa478, 0xe8c7b756, 0x242070db, 0xc1bdceee,
   0xf57c0faf, 0x4787c62a, 0xa8304613, 0xfd469501,
   0x698098d8, 0x8b44f7af, 0xffff5bb1, 0x895cd7be,
   0x6b901122, 0xfd987193, 0xa679438e, 0x49b40821,
   0xf61e2562, 0xc040b340, 0x265e5a51, 0xe9b6c7aa,
   0xd62f105d, 0x02441453, 0xd8a1e681, 0xe7d3fbc8,
   0x21e1cde6, 0xc33707d6, 0xf4d50d87, 0x455a14ed,
   0xa9e3e905, 0xfcefa3f8, 0x676f02d9, 0x8d2a4c8a,
   0xfffa3942, 0x8771f681, 0x6d9d6122, 0xfde5380c,
   0xa4beea44, 0x4bdecfa9, 0xf6bb4b60, 0xbebfbc70,
   0x289b7ec6, 0xeaa127fa, 0xd4ef3085, 0x04881d05,
   0xd9d4d039, 0xe6db99e5, 0x1fa27cf8, 0xc4ac5665,
   0xf4292244, 0x432aff97, 0xab9423a7, 0xfc93a039,
   0x655b59c3, 0x8f0ccc92, 0xffeff47d, 0x85845dd1,
   0x6fa87e4f, 0xfe2ce6e0, 0xa3014314, 0x4e0811a1,
   0xf7537e82, 0xbd3af235, 0x2ad7d2bb, 0xeb86d391]

/-- Non-linear function `F(x,y,z) = (x & y) | (~x & z)`. -/
def md5F (x y z : Nat) : Nat := (x &&& y) ||| ((x ^^^ 0xFFFFFFFF) &&& z)

/-- Non-linear function `G(x,y,z) = (x & z) | (y & ~z)`. -/
def md5G (x y z : Nat) : Nat := (x &&& z) ||| (y &&& (z ^^^ 0xFFFFFFFF))

/-- Non-linear function `H(x,y,z) = x ^ y ^ z`. -/
def md5H (x y z : Nat) : Nat := x ^^^ y ^^^ z

/-- Non-linear function `I(x,y,z) = y ^ (x | ~z)`. -/
def md5I (x y z : Nat) : Nat := y ^^^ (x ||| (z ^^^ 0xFFFFFFFF))

/-- Rotation macro `LR32(x,b)`: 32-bit left rotation, `((x << (b&31)) | (x >> (32-(b&31))))`
with the left shift performed in `uint32_t`. -/
def LR32 (x b : Nat) : Nat :=
  ((x <<< (b &&& 31)) % U32) ||| (x >>> (32 - (b &&& 31)))

/-- The `FF` macro: `a += F(b,c,d) + x + ac; a = LR32(a, s); a += b`. -/
def md5FF (a b c d x s ac : Nat) : Nat :=
  (LR32 ((a + md5F b c d + x + ac) % U32) s + b) % U32

/-- The `GG` macro. -/
def md5GG (a b c d x s ac : Nat) : Nat :=
  (LR32 ((a + md5G b c d + x + ac) % U32) s + b) % U32

/-- The `HH` macro. -/
def md5HH (a b c d x s ac : Nat) : Nat :=
  (LR32 ((a + md5H b c d + x + ac) % U32) s + b) % U32

/-- The `II` macro. -/
def md5II (a b c d x s ac : Nat) : Nat :=
  (LR32 ((a + md5I b c d + x + ac) % U32) s + b) % U32

/-- The MD5 `Context`: four working registers, the partial-block buffer
(`blen` in C is `buff.length` here) and the total byte count `size`. -/
structure MD5Context where
  a : Nat
  b : Nat
  c : Nat
  d : Nat
  buff : List Nat
  size : Nat
  deriving Repr, DecidableEq

/-- Initialisation `__md5Init`: seed the registers with `AI BI CI DI`, empty buffer. -/
def md5Init : MD5Context :=
  ⟨0x67452301, 0xefcdab89, 0x98badcfe, 0x10325476, [], 0⟩

/-- Little-endian decoding of message word `M[i]` from a 64-byte block. -/
def md5M (block : List Nat) (i : Nat) : Nat :=
  (block.getD (i * 4) 0) |||
  ((block.getD (i * 4 + 1) 0) <<< 8) |||
  ((block.getD (i * 4 + 2) 0) <<< 16) |||
  ((block.getD (i * 4 + 3) 0) <<< 24)

/-- Block compression `__md5HandleBlock`: the 64 round operations exactly as the source lists
them, followed by the final additions into the context. -/
def md5HandleBlock (ctx : MD5Context) (block : List Nat) : MD5Context :=
  let M := md5M block
  let T := fun i => md5T.getD i 0
  let a := ctx.a
  let b := ctx.b
  let c := ctx.c
  let d := ctx.d
  -- Round 1
  let a := md5FF a b c d (M 0) 7 (T 0)
  let d := md5FF d a b c (M 1) 12 (T 1)
  let c := md5FF c d a b (M 2) 17 (T 2)
  let b := md5FF b c d a (M 3) 22 (T 3)
  let a := md5FF a b c d (M 4) 7 (T 4)
  let d := md5FF d a b c (M 5) 12 (T 5)
  let c := md5FF c d a b (M 6) 17 (T 6)
  let b := md5FF b c d a (M 7) 22 (T 7)
  let a := md5FF a b c d (M 8) 7 (T 8)
  let d := md5FF d a b c (M 9) 12 (T 9)
  let c := md5FF c d a b (M 10) 17 (T 10)
  let b := md5FF b c d a (M 11) 22 (T 11)
  let a := md5FF a b c d (M 12) 7 (T 12)
  let d := md5FF d a b c (M 13) 12 (T 13)
  let c := md5FF c d a b (M 14) 17 (T 14)
  let b := md5FF b c d a (M 15) 22 (T 15)
  -- Round 2
  let a := md5GG a b c d (M 1) 5 (T 16)
  let d := md5GG d a b c (M 6) 9 (T 17)
  let c := md5GG c d a b (M 11) 14 (T 18)
  let b := md5GG b c d a (M 0) 20 (T 19)
  let a := md5GG a b c d (M 5) 5 (T 20)
  let d := md5GG d a b c (M 10) 9 (T 21)
  let c := md5GG c d a b (M 15) 14 (T 22)
  let b := md5GG b c d a (M 4) 20 (T 23)
  let a := md5GG a b c d (M 9) 5 (T 24)
  let d := md5GG d a b c (M 14) 9 (T 25)
  let c := md5GG c d a b (M 3) 14 (T 26)
  let b := md5GG b c d a (M 8) 20 (T 27)
  let a := md5GG a b c d (M 13) 5 (T 28)
  let d := md5GG d a b c (M 2) 9 (T 29)
  let c := md5GG c d a b (M 7) 14 (T 30)
  let b := md5GG b c d a (M 12) 20 (T 31)
  -- Round 3
  let a := md5HH a b c d (M 5) 4 (T 32)
  let d := md5HH d a b c (M 8) 11 (T 33)
  let c := md5HH c d a b (M 11) 16 (T 34)
  let b := md5HH b c d a (M 14) 23 (T 35)
  let a := md5HH a b c d (M 1) 4 (T 36)
  let d := md5HH d a b c (M 4) 11 (T 37)
  let c := md5HH c d a b (M 7) 16 (T 38)
  let b := md5HH b c d a (M 10) 23 (T 39)
  let a := md5HH a b c d (M 13) 4 (T 40)
  let d := md5HH d a b c (M 0) 11 (T 41)
  let c := md5HH c d a b (M 3) 16 (T 42)
  let b := md5HH b c d a (M 6) 23 (T 43)
  let a := md5HH a b c d (M 9) 4 (T 44)
  let d := md5HH d a b c (M 12) 11 (T 45)
  let c := md5HH c d a b (M 15) 16 (T 46)
  let b := md5HH b c d a (M 2) 23 (T 47)
  -- Round 4
  let a := md5II a b c d (M 0) 6 (T 48)
  let d := md5II d a b c (M 7) 10 (T 49)
  let c := md5II c d a b (M 14) 15 (T 50)
  let b := md5II b c d a (M 5) 21 (T 51)
  let a := md5II a b c d (M 12) 6 (T 52)
  let d := md5II d a b c (M 3) 10 (T 53)
  let c := md5II c d a b (M 10) 15 (T 54)
  let b := md5II b c d a (M 1) 21 (T 55)
  let a := md5II a b c d (M 8) 6 (T 56)
  let d := md5II d a b c (M 15) 10 (T 57)
  let c := md5II c d a b (M 6) 15 (T 58)
  let b := md5II b c d a (M 13) 21 (T 59)
  let a := md5II a b c d (M 4) 6 (T 60)
  let d := md5II d a b c (M 11) 10 (T 61)
  let c := md5II c d a b (M 2) 15 (T 62)
  let b := md5II b c d a (M 9) 21 (T 63)
  { ctx with
    a := (ctx.a + a) % U32
    b := (ctx.b + b) % U32
    c := (ctx.c + c) % U32
    d := (ctx.d + d) % U32 }

/-- The `while (len - offset >= 64)` loop of `__md5UpdateLen`, followed by
the trailing `memcpy` of any remainder into the buffer.  `fuel` bounds the
iteration count (each iteration consumes 64 input bytes, so any
`fuel ≥ inp.length` is enough; the zero-fuel base case is then only
reached with empty input, where the loop body would not run anyway). -/
def md5LoopFuel : Nat → MD5Context → List Nat → MD5Context
  | 0, ctx, _ => ctx
  | fuel + 1, ctx, inp =>
    if 64 ≤ inp.length then
      md5LoopFuel fuel (md5HandleBlock ctx (inp.take 64)) (inp.drop 64)
    else if 0 < inp.length then { ctx with buff := inp }
    else ctx

/-- The block loop with its fuel instantiated. -/
def md5Loop (ctx : MD5Context) (inp : List Nat) : MD5Context :=
  md5LoopFuel inp.length ctx inp

/-- Update step `__md5UpdateLen`: optionally account the length, top up a non-empty
partial buffer first (flushing it when it reaches 64 bytes), then run the
block loop on the remaining input. -/
def md5UpdateLen (ctx : MD5Context) (inp : List Nat) (upd : Bool) : MD5Context :=
  let ctx := if upd then { ctx with size := ctx.size + inp.length } else ctx
  if 0 < ctx.buff.length then
    let copy := min (64 - ctx.buff.length) inp.length
    let buff := ctx.buff ++ inp.take copy
    let rest := inp.drop copy
    if buff.length = 64 then md5Loop { md5HandleBlock ctx buff with buff := [] } rest
    else md5Loop { ctx with buff := buff } rest
  else
    md5Loop ctx inp

/-- Wrapper `__md5Update`. -/
def md5Update (ctx : MD5Context) (inp : List Nat) : MD5Context :=
  md5UpdateLen ctx inp true

/-- Finalisation `md5_finalize`: `0x80`-then-zeros padding to 56 mod 64, the 64-bit
little-endian bit length, then the little-endian serialization of the
four registers. -/
def md5Finalize (ctx : MD5Context) : List Nat :=
  let blen := ctx.buff.length
  let pad_len := if blen < 56 then 56 - blen else 120 - blen
  let padding := 0x80 :: List.replicate 63 0
  let ctx := md5UpdateLen ctx (padding.take pad_len) false
  let size_bits := (ctx.size * 8) % 2 ^ 64
  let length_bytes := (List.range 8).map (fun i => (size_bits >>> (8 * i)) &&& 0xFF)
  let ctx := md5UpdateLen ctx length_bytes false
  [ctx.a, ctx.b, ctx.c, ctx.d].flatMap
    (fun st => [st &&& 0xFF, (st >>> 8) &&& 0xFF, (st >>> 16) &&& 0xFF, (st >>> 24) &&& 0xFF])

/-- One-shot `md5Digest`: init / update / finalize. -/
def md5Digest (data : List Nat) : List Nat :=
  md5Finalize (md5Update md5Init data)

/-! ## Typed growable container (deltautils.h `DU_VECTOR`, lines 625-707)

The struct fields are kept verbatim; the raw buffer is viewed logically as
the list of the `length` stored cells, each cell being its `cell_size`
bytes.  `realloc` preserves buffer contents, so a cell list is a faithful
view of the states the claims quantify over.  Allocation success is an
explicit `Bool` argument. -/

structure Vec where
  capacity : Nat
  length : Nat
  cell_size : Nat
  data : List (List Nat)
  deriving Repr, DecidableEq

/-- Constructor `vecNew` (success path): a zero `capacity_opt` becomes the default 4;
`length = 0`; `do_clear` only affects the not-yet-occupied cells, which the
logical view does not carry. -/
def vecNew (cell_size capacity_opt : Nat) (do_clear : Bool) : Vec :=
  let cap := if capacity_opt = 0 then 4 else capacity_opt
  { capacity := cap, length := 0, cell_size := cell_size, data := [] }

/-- Query `vecLength`. -/
def vecLength (v : Vec) : Nat := v.length

/-- Query `vecCellSize`. -/
def vecCellSize (v : Vec) : Nat := v.cell_size

/-- Query `vecCapacity`. -/
def vecCapacity (v : Vec) : Nat := v.capacity

/-- Setter `vecSet`: `memcpy` of exactly `cell_size` bytes from `val` into slot
`idx` (precondition `idx < length` is the C `assert`). -/
def vecSet (v : Vec) (idx : Nat) (val : List Nat) : Vec :=
  { v with data := v.data.set idx (val.take v.cell_size) }

/-- Accessor `vecAt`: the `cell_size` bytes stored at slot `idx` (precondition
`idx < length`). -/
def vecAt (v : Vec) (idx : Nat) : List Nat :=
  v.data.getD idx []

/-- Append `vecPush`: when full, `vec->capacity *= 2` happens BEFORE the realloc;
on realloc failure the function returns at once, with the capacity field
already doubled.  On success (`reallocOk`), `length++` and the value is
written into the new last slot, which appends it to the logical cell
list. -/
def vecPush (v : Vec) (val : List Nat) (reallocOk : Bool) : Vec :=
  if v.length = v.capacity then
    let grown := { v with capacity := 2 * v.capacity % U32 }
    if reallocOk then
      { grown with length := grown.length + 1,
                   data := grown.data ++ [val.take grown.cell_size] }
    else grown
  else
    { v with length := v.length + 1, data := v.data ++ [val.take v.cell_size] }

/-- Removal `vecPop`: returns the last cell and decrements `length` (precondition
`length > 0`); the logical view drops the now-dead cell. -/
def vecPop (v : Vec) : List Nat × Vec :=
  (v.data.getD (v.length - 1) [], { v with length := v.length - 1, data := v.data.dropLast })

/-- Resizing `vecReserve`: reallocs to `new_capacity` slots and sets
`vec->capacity = new_capacity` unconditionally — including when
`new_capacity` is below the current capacity or length.  On realloc
failure the vector is unchanged.  (`do_clear` only zero-fills
newly-allocated slots beyond the stored cells, which the logical view does
not carry.) -/
def vecReserve (v : Vec) (new_capacity : Nat) (do_clear : Bool) (reallocOk : Bool) : Vec :=
  if reallocOk then { v with capacity := new_capacity } else v

/-- Fold a list of values into the container by successful pushes. -/
def vecPushAll (v : Vec) (vals : List (List Nat)) : Vec :=
  vals.foldl (fun v x => vecPush v x true) v

/-! ## Byte-keyed hash table (src/unnamed/part_000, `dict` module)

Keys are byte sequences (`List Nat`), values are opaque references
modelled as `Nat` identifiers.  The two release callbacks are modelled by
presence flags; operations additionally return the list of keys / values
they passed to `free_key` / `free_val`, in call order. -/

/-- A bucket entry: key bytes, and the opaque value (`key_len` is
`key.length`). -/
structure DictEntry where
  key : List Nat
  val : Nat
  deriving Repr, DecidableEq

/-- The `Dictionary` record: bucket array, bucket count, and the presence
of the two release callbacks. -/
structure Dictionary where
  entries : List (List DictEntry)
  size : Nat
  free_key : Bool
  free_val : Bool
  deriving Repr, DecidableEq

/-- Single step of `__dictHashBytes`: `hash = ((hash << 5) + hash) ^ data[i]`
in `uint32_t`. -/
def dictHashStep (h b : Nat) : Nat :=
  (((h <<< 5) + h) % U32) ^^^ b

/-- Hash `__dictHashBytes`: DJB2-style fold from seed 5381, reduced modulo the
bucket count. -/
def dictHashBytes (key : List Nat) (size : Nat) : Nat :=
  (key.foldl dictHashStep 5381) % size

/-- The hash fold exactly as the spec words it: seed 5381 and
`hash = (hash * 33) XOR byte` in 32-bit modular arithmetic, taken modulo
the bucket count.  (Spec-worded counterpart of `dictHashBytes`, for the
C8 comparison.) -/
def dictHashSpec (key : List Nat) (size : Nat) : Nat :=
  (key.foldl (fun h b => ((h * 33) % U32) ^^^ b) 5381) % size

/-- Key comparison `__dictIsKeyEqual`: length comparison then `memcmp`. -/
def dictIsKeyEqual (k1 k2 : List Nat) : Bool :=
  if k1.length ≠ k2.length then false else k1 == k2

/-- Constructor `dictNew` (success path): `size` empty buckets, callback flags. -/
def dictNew (size : Nat) (free_key free_val : Bool) : Dictionary :=
  { entries := List.replicate size [], size := size,
    free_key := free_key, free_val := free_val }

/-- The `while (entry)` scan of `dictSet`: find the first byte-equal key
in the chain, release the old value (when `free_val` is set) and replace
the value in place.  `none` when no entry matches. -/
def dictSetChain (key : List Nat) (val : Nat) (fv : Bool) :
    List DictEntry → Option (List DictEntry × List Nat)
  | [] => none
  | e :: rest =>
    if dictIsKeyEqual e.key key then
      some ({ e with val := val } :: rest, if fv then [e.val] else [])
    else
      (dictSetChain key val fv rest).map (fun p => (e :: p.1, p.2))

/-- Insert-or-update `dictSet`: hash to a bucket, try an in-place replace along the chain;
otherwise (when the entry `malloc` succeeds) prepend a new entry holding
the key reference.  Returns the updated dictionary together with the keys
and values passed to the release callbacks during the call. -/
def dictSet (d : Dictionary) (key : List Nat) (val : Nat) (allocOk : Bool) :
    Dictionary × List (List Nat) × List Nat :=
  let idx := dictHashBytes key d.size
  let bucket := d.entries.getD idx []
  match dictSetChain key val d.free_val bucket with
  | some (bucket', released) =>
    ({ d with entries := d.entries.set idx bucket' }, [], released)
  | none =>
    if allocOk then
      ({ d with entries := d.entries.set idx (⟨key, val⟩ :: bucket) }, [], [])
    else (d, [], [])

/-- The `while (entry)` scan of `dictGet`. -/
def dictGetChain (key : List Nat) : List DictEntry → Option Nat
  | [] => none
  | e :: rest =>
    if dictIsKeyEqual e.key key then some e.val else dictGetChain key rest

/-- Lookup `dictGet`: hash to a bucket and scan its chain. -/
def dictGet (d : Dictionary) (key : List Nat) : Option Nat :=
  dictGetChain key (d.entries.getD (dictHashBytes key d.size) [])

/-- Teardown `dictFree`: walks every bucket chain in order, invoking `free_key` on
each entry's key and `free_val` on each entry's value when the respective
callback is set.  Returns the two call-argument sequences. -/
def dictFree (d : Dictionary) : List (List Nat) × List Nat :=
  ((if d.free_key then (d.entries.flatten.map DictEntry.key) else []),
   (if d.free_val then (d.entries.flatten.map DictEntry.val) else []))

/-- All live entries of the dictionary, in bucket-then-chain order. -/
def dictLive (d : Dictionary) : List DictEntry := d.entries.flatten

/-- Total number of live entries. -/
def dictCount (d : Dictionary) : Nat := (dictLive d).length

/-- Number of live entries whose key is byte-equal to `k`. -/
def dictKeyCount (d : Dictionary) (k : List Nat) : Nat :=
  ((dictLive d).filter (fun e => dictIsKeyEqual e.key k)).length

/-- Run a sequence of `dictSet` calls, each op carrying its key, value and
whether the entry `malloc` (if one is needed) succeeds; release reports
are discarded. -/
def dictRun (d : Dictionary) (ops : List (List Nat × Nat × Bool)) : Dictionary :=
  ops.foldl (fun d op => (dictSet d op.1 op.2.1 op.2.2).1) d

/-- Run a sequence of `dictSet` calls with every entry allocation
succeeding. -/
def dictRunOk (d : Dictionary) (ops : List (List Nat × Nat)) : Dictionary :=
  dictRun d (ops.map (fun op => (op.1, op.2, true)))

/-- The value of the most recent (latest-in-list) set whose key is
byte-equal to `k`, the spec-side reference for `dictGet`. -/
def lastSet : List (List Nat × Nat) → List Nat → Option Nat
  | [], _ => none
  | (k0, v0) :: rest, k =>
    match lastSet rest k with
    | some v => some v
    | none => if dictIsKeyEqual k0 k then some v0 else none

/-- The representation invariant of the hash table: the bucket array has
`size` buckets, every entry sits in the bucket its key hashes to, and no
bucket chain carries two byte-equal keys. -/
def DictInv (d : Dictionary) : Prop :=
  d.entries.length = d.size ∧
  (∀ i, ∀ e ∈ d.entries.getD i [], dictHashBytes e.key d.size = i) ∧
  (∀ i, ((d.entries.getD i []).map DictEntry.key).Nodup)

/-! ## String helpers (deltautils.h `DU_STRINGS`, lines 835-1022) -/

/-- Slicing `strSlice`: substring from `start` to `end` (exclusive), clamped to
the string length; empty when `start >= len` or `start >= end`. -/
def strSlice (s : List Char) (start stop : Nat) : List Char :=
  if start ≥ s.length ∨ start ≥ stop then []
  else
    let stop := if stop > s.length then s.length else stop
    (s.drop start).take (stop - start)

/-- Counting `strCount`, specialised to the one-character needle `strSplit` builds
(`char needle[2] = { delim, 0 }`): the `strstr` loop then advances one
character past each match, so it counts every occurrence of `delim`. -/
def strCount (s : List Char) (delim : Char) : Nat :=
  match s with
  | [] => 0
  | c :: rest => (if c = delim then 1 else 0) + strCount rest delim

/-- The character walk of `strSplit`: `l`/`r` are the slice bounds of the
current token; each delimiter pushes `strSlice full l r`; at the end of
the string a final token (or an empty string after a trailing delimiter)
is pushed. -/
def strSplitWalk (full : List Char) (delim : Char) :
    List Char → Nat → Nat → List (List Char)
  | [], l, r => if l < r then [strSlice full l r] else [[]]
  | c :: rest, l, r =>
    if c = delim then strSlice full l r :: strSplitWalk full delim rest (r + 1) (r + 1)
    else strSplitWalk full delim rest l (r + 1)

/-- Splitting `strSplit` (allocation succeeding): computes `p_len = strCount + 1`
and returns NULL — `none` — when it is 1, i.e. when the delimiter does not
occur; otherwise collects the tokens. -/
def strSplit (s : List Char) (delim : Char) : Option (List (List Char)) :=
  let p_len := strCount s delim + 1
  if p_len = 1 then none
  else some (strSplitWalk s delim s 0 0)

/-! ## Theorems -/

/-- Claim C1 (code bug): `b64Encode` of `deltautils.h` masks every 6-bit
group with `0xF`, so on the bytes of "Hello" it emits "CGFMLGM=" instead
of "SGVsbG8=", and the round trip through `b64Decode` does not restore the
input.  The repository's other encoder copy, `b64encode` of
`src/utils/base64.c` (whose own comment reads `Hello -> SGVsbG8=`), masks
with `0b111111` and does produce "SGVsbG8=", which `b64Decode` decodes
back to "Hello". -/
theorem b64Encode_hello_mask_bug :
    b64Encode [72, 101, 108, 108, 111] = "CGFMLGM=".toList ∧
    b64Encode [72, 101, 108, 108, 111] ≠ "SGVsbG8=".toList ∧
    b64Decode (b64Encode [72, 101, 108, 108, 111]) ≠ [72, 101, 108, 108, 111] ∧
    b64encode [72, 101, 108, 108, 111] = "SGVsbG8=".toList ∧
    b64Decode "SGVsbG8=".toList = [72, 101, 108, 108, 111] := by
  decide

/-- Claim C2 (code bug): on a full container (length 4 = capacity 4,
reached by four successful pushes) whose growth reallocation fails,
`vecPush` is not a no-op: it has already executed `vec->capacity *= 2`
before the `realloc`, so the capacity field comes back doubled to 8 while
length, cell size and the stored cells are unchanged. -/
theorem vecPush_failed_realloc_changes_capacity :
    vecPush (vecPushAll (vecNew 1 4 false) [[1], [2], [3], [4]]) [5] false ≠
      vecPushAll (vecNew 1 4 false) [[1], [2], [3], [4]] ∧
    (vecPush (vecPushAll (vecNew 1 4 false) [[1], [2], [3], [4]]) [5] false).capacity = 8 ∧
    (vecPushAll (vecNew 1 4 false) [[1], [2], [3], [4]]).capacity = 4 ∧
    (vecPush (vecPushAll (vecNew 1 4 false) [[1], [2], [3], [4]]) [5] false).length = 4 ∧
    (vecPush (vecPushAll (vecNew 1 4 false) [[1], [2], [3], [4]]) [5] false).cell_size = 1 ∧
    (vecPush (vecPushAll (vecNew 1 4 false) [[1], [2], [3], [4]]) [5] false).data =
      [[1], [2], [3], [4]] := by
  decide

/-- Claim C3 (code bug): `vecReserve` reallocs to the requested capacity
and assigns `vec->capacity = new_capacity` unconditionally, so reserving 1
slot on a container of capacity 4 holding 2 elements SHRINKS the capacity
below the length: capacity decreases from 4 to 1 and `length <= capacity`
is violated, contrary to the claim (and to the function's own
"at least `new_capacity` slots" documentation). -/
theorem vecReserve_shrinks_below_length :
    (vecPushAll (vecNew 1 4 false) [[7], [8]]).capacity = 4 ∧
    (vecPushAll (vecNew 1 4 false) [[7], [8]]).length = 2 ∧
    (vecReserve (vecPushAll (vecNew 1 4 false) [[7], [8]]) 1 false true).capacity = 1 ∧
    (vecReserve (vecPushAll (vecNew 1 4 false) [[7], [8]]) 1 false true).length = 2 ∧
    (vecReserve (vecPushAll (vecNew 1 4 false) [[7], [8]]) 1 false true).capacity <
      (vecPushAll (vecNew 1 4 false) [[7], [8]]).capacity ∧
    ¬ (vecReserve (vecPushAll (vecNew 1 4 false) [[7], [8]]) 1 false true).length ≤
        (vecReserve (vecPushAll (vecNew 1 4 false) [[7], [8]]) 1 false true).capacity := by
  decide

/-- Claim C9: `md5Digest` reproduces the three reference MD5 vectors:
the empty input, "abc", and "The quick brown fox jumps over the lazy
dog". -/
theorem md5Digest_known_vectors :
    md5Digest [] =
      [0xd4, 0x1d, 0x8c, 0xd9, 0x8f, 0x00, 0xb2, 0x04,
       0xe9, 0x80, 0x09, 0x98, 0xec, 0xf8, 0x42, 0x7e] ∧
    md5Digest ("abc".toList.map Char.toNat) =
      [0x90, 0x01, 0x50, 0x98, 0x3c, 0xd2, 0x4f, 0xb0,
       0xd6, 0x96, 0x3f, 0x7d, 0x28, 0xe1, 0x7f, 0x72] ∧
    md5Digest ("The quick brown fox jumps over the lazy dog".toList.map Char.toNat) =
      [0x9e, 0x10, 0x7d, 0x9d, 0x37, 0x2b, 0xb6, 0x82,
       0x6b, 0xd8, 0x1d, 0x35, 0x42, 0xa4, 0x19, 0xd6] := by
  refine ⟨by decide, by decide, by decide⟩

/-- Claim C8: the bucket index computed by `__dictHashBytes` equals the
spec's fold — seed 5381, each byte folded by `hash = (hash * 33) XOR byte`
in 32-bit arithmetic — reduced modulo the (positive) bucket count. -/
theorem dictHashBytes_eq_spec (key : List Nat) (size : Nat) (h : 0 < size) :
    dictHashBytes key size = dictHashSpec key size := by
  unfold dictHashBytes dictHashSpec
  congr 1
  apply List.foldl_ext
  intro a x _
  unfold dictHashStep
  have h32 : a <<< 5 + a = a * 33 := by
    rw [Nat.shiftLeft_eq]; ring
  rw [h32]

/-- Witness for C8 at key `[1, 2, 3]` and bucket count 32. -/
theorem dictHashBytes_eq_spec_witness :
    0 < 32 ∧ dictHashBytes [1, 2, 3] 32 = dictHashSpec [1, 2, 3] 32 :=
  ⟨by decide, dictHashBytes_eq_spec [1, 2, 3] 32 (by decide)⟩

/-- A string without the delimiter has `strCount` zero. -/
theorem strCount_eq_zero_of_not_mem (s : List Char) (delim : Char)
    (h : delim ∉ s) : strCount s delim = 0 := by
  induction s with
  | nil => rfl
  | cons c rest ih =>
    have hc : ¬ c = delim := fun hcd => h (hcd ▸ List.mem_cons_self c rest)
    have hrest : delim ∉ rest := fun hm => h (List.mem_cons_of_mem c hm)
    simp [strCount, hc, ih hrest]

/-- Claim C10: when the delimiter does not occur in the input string,
`strSplit` computes `p_len = 1` and returns NULL (`none`) instead of a
one-element array. -/
theorem strSplit_no_delim_none (s : List Char) (delim : Char)
    (h : delim ∉ s) : strSplit s delim = none := by
  simp [strSplit, strCount_eq_zero_of_not_mem s delim h]

/-- Witness for C10 on "ab" split at a comma. -/
theorem strSplit_no_delim_none_witness :
    (',' ∉ ['a', 'b']) ∧ strSplit ['a', 'b'] ',' = none :=
  ⟨by decide, strSplit_no_delim_none ['a', 'b'] ',' (by decide)⟩

/-- A successful `vecPush` appends the (`cell_size`-truncated) value to the
cell list, increments the length, and touches nothing else. -/
theorem vecPush_true_spec (v : Vec) (x : List Nat) :
    (vecPush v x true).data = v.data ++ [x.take v.cell_size] ∧
    (vecPush v x true).length = v.length + 1 ∧
    (vecPush v x true).cell_size = v.cell_size := by
  unfold vecPush
  split <;> exact ⟨rfl, rfl, rfl⟩

/-- Folding successful pushes appends all the (truncated) values in
order. -/
theorem vecPushAll_spec (vals : List (List Nat)) (v : Vec) :
    (vecPushAll v vals).data = v.data ++ vals.map (fun x => x.take v.cell_size) ∧
    (vecPushAll v vals).length = v.length + vals.length ∧
    (vecPushAll v vals).cell_size = v.cell_size := by
  induction vals generalizing v with
  | nil => simp [vecPushAll]
  | cons x rest ih =>
    obtain ⟨hd, hl, hc⟩ := vecPush_true_spec v x
    have hrest := ih (vecPush v x true)
    rw [vecPushAll] at hrest ⊢
    simp only [List.foldl_cons] at *
    refine ⟨?_, ?_, ?_⟩
    · rw [hrest.1, hd, hc]
      simp [List.map_cons]
    · rw [hrest.2.1, hl]
      simp [List.length_cons]
      omega
    · rw [hrest.2.2, hc]

/-- Claim C4: pushing `v0..vn-1` (each of `cell_size` bytes, all
reallocations succeeding) into a fresh container makes `vecAt i` return
exactly `vi` for every `i < n`, and `vecLength` return `n`. -/
theorem vecPushAll_at_roundtrip (cs c0 : Nat) (do_clear : Bool)
    (vals : List (List Nat)) (hlen : ∀ x ∈ vals, x.length = cs)
    (i : Nat) (hi : i < vals.length) :
    vecAt (vecPushAll (vecNew cs c0 do_clear) vals) i = vals[i] ∧
    vecLength (vecPushAll (vecNew cs c0 do_clear) vals) = vals.length := by
  obtain ⟨hd, hl, _⟩ := vecPushAll_spec vals (vecNew cs c0 do_clear)
  have hnew_data : (vecNew cs c0 do_clear).data = [] := rfl
  have hnew_len : (vecNew cs c0 do_clear).length = 0 := rfl
  have hnew_cs : (vecNew cs c0 do_clear).cell_size = cs := rfl
  constructor
  · unfold vecAt
    rw [hd, hnew_data, hnew_cs, List.nil_append]
    have hmap : i < (vals.map (fun x => x.take cs)).length := by
      simpa using hi
    rw [List.getD_eq_getElem _ _ hmap, List.getElem_map]
    have : vals[i].length = cs := hlen vals[i] (List.getElem_mem hi)
    exact List.take_of_length_le (le_of_eq this)
  · unfold vecLength
    rw [hl, hnew_len, Nat.zero_add]

/-- Witness for C4: two 1-byte values pushed into a fresh container. -/
theorem vecPushAll_at_roundtrip_witness :
    (∀ x ∈ [[3], [4]], x.length = 1) ∧ 0 < 2 ∧
    (vecAt (vecPushAll (vecNew 1 4 false) [[3], [4]]) 0 = [3] ∧
     vecLength (vecPushAll (vecNew 1 4 false) [[3], [4]]) = 2) :=
  ⟨by decide, by decide,
   vecPushAll_at_roundtrip 1 4 false [[3], [4]] (by decide) 0 (by decide)⟩

/-! ### List helpers for the hash-table proofs -/

/-- Reading `getD` on a replicated list gives the replicated element. -/
theorem getD_replicate {α : Type} (c : α) (n i : Nat) :
    (List.replicate n c).getD i c = c := by
  induction n generalizing i with
  | zero => simp
  | succ m ih => cases i <;> simp [List.replicate, ih]

/-- Reading `getD` at the just-set index gives the new element. -/
theorem getD_set_self {α : Type} (l : List α) (i : Nat) (a d : α)
    (h : i < l.length) : (l.set i a).getD i d = a := by
  induction l generalizing i with
  | nil => simp at h
  | cons b rest ih =>
    cases i with
    | zero => simp
    | succ j => simpa using ih j (by simpa using h)

/-- Reading `getD` away from the set index is unchanged. -/
theorem getD_set_ne {α : Type} (l : List α) (i j : Nat) (a d : α)
    (h : i ≠ j) : (l.set i a).getD j d = l.getD j d := by
  induction l generalizing i j with
  | nil => simp
  | cons b rest ih =>
    cases i with
    | zero =>
      cases j with
      | zero => exact absurd rfl h
      | succ j => simp
    | succ i =>
      cases j with
      | zero => simp
      | succ j => simpa using ih i j (fun hij => h (by omega))

/-- Setting an index to the element already there is the identity. -/
theorem set_getD_self {α : Type} (l : List α) (i : Nat) (d : α)
    (h : i < l.length) : l.set i (l.getD i d) = l := by
  induction l generalizing i with
  | nil => simp at h
  | cons b rest ih =>
    cases i with
    | zero => simp
    | succ j => simpa using ih j (by simpa using h)

/-- A flatten whose every indexed bucket fails `p` filters to nil. -/
theorem filter_flatten_nil {α : Type} (p : α → Bool) (l : List (List α))
    (h : ∀ j (hj : j < l.length), ∀ e ∈ l[j], p e = false) :
    l.flatten.filter p = [] := by
  induction l with
  | nil => simp
  | cons b rest ih =>
    rw [List.flatten_cons, List.filter_append]
    have hb : b.filter p = [] :=
      List.filter_eq_nil_iff.mpr (fun e he => by
        simpa using h 0 (by simp) e he)
    have hrest : rest.flatten.filter p = [] :=
      ih (fun j hj e he => h (j + 1) (by simpa using hj) e he)
    rw [hb, hrest, List.nil_append]

/-- If `p` can only hold in the bucket at `idx`, and there it holds at
most once, then it holds at most once in the whole flatten. -/
theorem filter_flatten_le_one {α : Type} (p : α → Bool) (l : List (List α))
    (idx : Nat)
    (hside : ∀ j (hj : j < l.length), j ≠ idx → ∀ e ∈ l[j], p e = false)
    (hmid : ∀ (hidx : idx < l.length), (l[idx].filter p).length ≤ 1) :
    (l.flatten.filter p).length ≤ 1 := by
  induction l generalizing idx with
  | nil => simp
  | cons b rest ih =>
    rw [List.flatten_cons, List.filter_append, List.length_append]
    cases idx with
    | zero =>
      have hrest : rest.flatten.filter p = [] :=
        filter_flatten_nil p rest
          (fun j hj e he => hside (j + 1) (by simpa using hj) (by omega) e he)
      have hb : (b.filter p).length ≤ 1 := by simpa using hmid (by simp)
      simp only [hrest, List.length_nil]
      omega
    | succ m =>
      have hb : b.filter p = [] :=
        List.filter_eq_nil_iff.mpr (fun e he => by
          simpa using hside 0 (by simp) (by omega) e he)
      have hrest := ih m
        (fun j hj hne e he => hside (j + 1) (by simpa using hj) (by omega) e he)
        (fun hm => by simpa using hmid (by simpa using hm))
      simp only [hb, List.length_nil]
      omega

/-! ### Key equality and chain lemmas -/

/-- Key comparison `__dictIsKeyEqual` decides byte equality of keys. -/
theorem dictIsKeyEqual_iff (k1 k2 : List Nat) :
    dictIsKeyEqual k1 k2 = true ↔ k1 = k2 := by
  unfold dictIsKeyEqual
  split
  · constructor
    · intro h; exact absurd h (by simp)
    · intro h; subst h; simp_all
  · simp [beq_iff_eq]

/-- Key comparison `__dictIsKeyEqual` agrees with list `BEq`. -/
theorem dictIsKeyEqual_eq_beq (k1 k2 : List Nat) :
    dictIsKeyEqual k1 k2 = (k1 == k2) := by
  by_cases h : k1 = k2
  · subst h; simp [(dictIsKeyEqual_iff k1 k1).mpr rfl]
  · have h1 : dictIsKeyEqual k1 k2 = false := by
      cases hb : dictIsKeyEqual k1 k2
      · rfl
      · exact absurd ((dictIsKeyEqual_iff k1 k2).mp hb) h
    have h2 : (k1 == k2) = false := by simpa using h
    rw [h1, h2]

/-- A failed chain scan means no byte-equal key along the chain. -/
theorem dictSetChain_none_iff (k : List Nat) (v : Nat) (fv : Bool)
    (chain : List DictEntry) :
    dictSetChain k v fv chain = none ↔ ∀ e ∈ chain, e.key ≠ k := by
  induction chain with
  | nil => simp [dictSetChain]
  | cons e rest ih =>
    rw [dictSetChain]
    split
    · rename_i heq
      constructor
      · intro h; exact absurd h (by simp)
      · intro h
        exact absurd ((dictIsKeyEqual_iff e.key k).mp heq)
          (h e (List.mem_cons_self e rest))
    · rename_i hne
      constructor
      · intro h e' he'
        rcases List.mem_cons.mp he' with he' | he'
        · subst he'
          intro hk
          exact hne ((dictIsKeyEqual_iff e'.key k).mpr hk)
        · have : dictSetChain k v fv rest = none := by
            cases hres : dictSetChain k v fv rest
            · rfl
            · rw [hres] at h; simp [Option.map] at h
          exact ih.mp this e' he'
      · intro h
        have : dictSetChain k v fv rest = none :=
          ih.mpr (fun e' he' => h e' (List.mem_cons_of_mem e he'))
        rw [this]; rfl

/-- A successful chain replace keeps the chain's key list unchanged. -/
theorem dictSetChain_keys (k : List Nat) (v : Nat) (fv : Bool)
    (chain : List DictEntry) :
    ∀ chain' rel, dictSetChain k v fv chain = some (chain', rel) →
      chain'.map DictEntry.key = chain.map DictEntry.key := by
  induction chain with
  | nil => intro chain' rel h; simp [dictSetChain] at h
  | cons e rest ih =>
    intro chain' rel h
    rw [dictSetChain] at h
    split at h
    · simp only [Option.some.injEq, Prod.mk.injEq] at h
      obtain ⟨h1, _⟩ := h
      subst h1
      simp
    · cases hres : dictSetChain k v fv rest with
      | none => rw [hres] at h; simp at h
      | some p =>
        rw [hres] at h
        simp only [Option.map_some', Option.some.injEq, Prod.mk.injEq] at h
        obtain ⟨h1, _⟩ := h
        subst h1
        simpa using ih p.1 p.2 (by rw [hres])

/-- After a successful chain replace, scanning for the same key finds the
new value (the replace and the scan agree on the first byte-equal
entry). -/
theorem dictSetChain_get_same (k : List Nat) (v : Nat) (fv : Bool)
    (chain : List DictEntry) :
    ∀ chain' rel, dictSetChain k v fv chain = some (chain', rel) →
      dictGetChain k chain' = some v := by
  induction chain with
  | nil => intro chain' rel h; simp [dictSetChain] at h
  | cons e rest ih =>
    intro chain' rel h
    rw [dictSetChain] at h
    split at h
    · rename_i heq
      simp only [Option.some.injEq, Prod.mk.injEq] at h
      obtain ⟨h1, _⟩ := h
      subst h1
      rw [dictGetChain]
      simp only [heq]
      rfl
    · rename_i hne
      cases hres : dictSetChain k v fv rest with
      | none => rw [hres] at h; simp at h
      | some p =>
        rw [hres] at h
        simp only [Option.map_some', Option.some.injEq, Prod.mk.injEq] at h
        obtain ⟨h1, _⟩ := h
        subst h1
        rw [dictGetChain]
        simp only [hne, if_false]
        exact ih p.1 p.2 (by rw [hres])

/-- A chain replace for key `k` does not change what a scan for any other
key sees. -/
theorem dictSetChain_get_other (k k' : List Nat) (v : Nat) (fv : Bool)
    (chain : List DictEntry) (hne : k ≠ k') :
    ∀ chain' rel, dictSetChain k v fv chain = some (chain', rel) →
      dictGetChain k' chain' = dictGetChain k' chain := by
  induction chain with
  | nil => intro chain' rel h; simp [dictSetChain] at h
  | cons e rest ih =>
    intro chain' rel h
    rw [dictSetChain] at h
    split at h
    · rename_i heq
      simp only [Option.some.injEq, Prod.mk.injEq] at h
      obtain ⟨h1, _⟩ := h
      subst h1
      have hkey : e.key = k := (dictIsKeyEqual_iff e.key k).mp heq
      have hke : dictIsKeyEqual e.key k' = false := by
        cases hb : dictIsKeyEqual e.key k'
        · rfl
        · exact absurd ((dictIsKeyEqual_iff e.key k').mp hb) (hkey ▸ hne)
      rw [dictGetChain, dictGetChain]
      simp only [hke]
      rfl
    · cases hres : dictSetChain k v fv rest with
      | none => rw [hres] at h; simp at h
      | some p =>
        rw [hres] at h
        simp only [Option.map_some', Option.some.injEq, Prod.mk.injEq] at h
        obtain ⟨h1, _⟩ := h
        subst h1
        rw [dictGetChain, dictGetChain]
        split
        · rfl
        · exact ih p.1 p.2 (by rw [hres])

/-- A successful scan means the replace succeeds too, and (with the value
callback set) releases exactly the superseded value. -/
theorem dictGetChain_some_set (k : List Nat) (v old : Nat) (fv : Bool)
    (chain : List DictEntry) (h : dictGetChain k chain = some old) :
    ∃ chain', dictSetChain k v fv chain =
      some (chain', if fv then [old] else []) := by
  induction chain with
  | nil => simp [dictGetChain] at h
  | cons e rest ih =>
    rw [dictGetChain] at h
    rw [dictSetChain]
    split at h
    · rename_i heq
      simp only [Option.some.injEq] at h
      subst h
      exact ⟨{ e with val := v } :: rest, by simp [heq]⟩
    · rename_i hne
      obtain ⟨chain', hchain'⟩ := ih h
      refine ⟨e :: chain', ?_⟩
      simp only [hne, if_false]
      rw [hchain']
      rfl

/-! ### Dictionary-level lemmas -/

/-- Operation `dictSet` never changes the bucket count, the callback flags, or the
number of buckets. -/
theorem dictSet_fields (d : Dictionary) (k : List Nat) (v : Nat) (ok : Bool) :
    (dictSet d k v ok).1.size = d.size ∧
    (dictSet d k v ok).1.free_key = d.free_key ∧
    (dictSet d k v ok).1.free_val = d.free_val ∧
    (dictSet d k v ok).1.entries.length = d.entries.length := by
  unfold dictSet
  cases hchain : dictSetChain k v d.free_val
      (d.entries.getD (dictHashBytes k d.size) []) with
  | some p =>
    obtain ⟨c', rel⟩ := p
    simp only [hchain]
    simp [List.length_set]
  | none =>
    cases ok <;> simp only [hchain] <;> simp [List.length_set]

/-- In a well-sized table, `dictGet` right after `dictSet` of the same key
returns the new value. -/
theorem dictGet_set_same (d : Dictionary) (k : List Nat) (v : Nat)
    (hlen : d.entries.length = d.size) (hsize : 0 < d.size) :
    dictGet (dictSet d k v true).1 k = some v := by
  have hidx : dictHashBytes k d.size < d.entries.length := by
    rw [hlen]; exact Nat.mod_lt _ hsize
  unfold dictGet dictSet
  cases hchain : dictSetChain k v d.free_val
      (d.entries.getD (dictHashBytes k d.size) []) with
  | some p =>
    obtain ⟨c', rel⟩ := p
    simp only [hchain]
    rw [getD_set_self _ _ _ _ hidx]
    exact dictSetChain_get_same k v d.free_val _ c' rel hchain
  | none =>
    simp only [hchain, if_true]
    rw [getD_set_self _ _ _ _ hidx]
    rw [dictGetChain]
    simp [(dictIsKeyEqual_iff k k).mpr rfl]

/-- In a well-sized table, `dictSet` of one key does not change what
`dictGet` of a different key returns. -/
theorem dictGet_set_other (d : Dictionary) (k k' : List Nat) (v : Nat)
    (ok : Bool) (hlen : d.entries.length = d.size) (hsize : 0 < d.size)
    (hne : k ≠ k') :
    dictGet (dictSet d k v ok).1 k' = dictGet d k' := by
  have hidx : dictHashBytes k d.size < d.entries.length := by
    rw [hlen]; exact Nat.mod_lt _ hsize
  unfold dictGet dictSet
  by_cases hsame : dictHashBytes k' d.size = dictHashBytes k d.size
  · cases hchain : dictSetChain k v d.free_val
        (d.entries.getD (dictHashBytes k d.size) []) with
    | some p =>
      obtain ⟨c', rel⟩ := p
      simp only [hchain, hsame]
      rw [getD_set_self _ _ _ _ hidx]
      exact dictSetChain_get_other k k' v d.free_val _ hne c' rel hchain
    | none =>
      simp only [hchain]
      split
      · simp only [hsame]
        rw [getD_set_self _ _ _ _ hidx]
        rw [dictGetChain]
        have hke : dictIsKeyEqual k k' = false := by
          cases hb : dictIsKeyEqual k k'
          · rfl
          · exact absurd ((dictIsKeyEqual_iff k k').mp hb) hne
        simp only [hke]
        rfl
      · rfl
  · cases hchain : dictSetChain k v d.free_val
        (d.entries.getD (dictHashBytes k d.size) []) with
    | some p =>
      obtain ⟨c', rel⟩ := p
      simp only [hchain]
      rw [getD_set_ne _ _ _ _ _ (fun h => hsame h.symm)]
    | none =>
      simp only [hchain]
      split
      · rw [getD_set_ne _ _ _ _ _ (fun h => hsame h.symm)]
      · rfl

/-- A fresh dictionary answers every lookup with "not found". -/
theorem dictGet_dictNew (size : Nat) (fk fv : Bool) (k : List Nat) :
    dictGet (dictNew size fk fv) k = none := by
  unfold dictGet dictNew
  rw [getD_replicate]
  rfl

/-- Operation `dictRun` never changes the bucket count, the callback flags, or the
number of buckets. -/
theorem dictRun_fields (ops : List (List Nat × Nat × Bool)) :
    ∀ d : Dictionary,
      (dictRun d ops).size = d.size ∧
      (dictRun d ops).free_key = d.free_key ∧
      (dictRun d ops).free_val = d.free_val ∧
      (dictRun d ops).entries.length = d.entries.length := by
  induction ops with
  | nil => intro d; exact ⟨rfl, rfl, rfl, rfl⟩
  | cons op rest ih =>
    intro d
    have hstep : dictRun d (op :: rest) =
        dictRun (dictSet d op.1 op.2.1 op.2.2).1 rest := by
      simp [dictRun]
    have hset := dictSet_fields d op.1 op.2.1 op.2.2
    have hrest := ih (dictSet d op.1 op.2.1 op.2.2).1
    rw [hstep]
    exact ⟨hrest.1.trans hset.1, hrest.2.1.trans hset.2.1,
           hrest.2.2.1.trans hset.2.2.1, hrest.2.2.2.trans hset.2.2.2⟩

/-- Running sets (allocations succeeding) from any well-sized table: a
lookup sees the most recent set of that key, else whatever the starting
table answered. -/
theorem dictRunOk_get (ops : List (List Nat × Nat)) :
    ∀ d : Dictionary, d.entries.length = d.size → 0 < d.size →
    ∀ k : List Nat,
      dictGet (dictRunOk d ops) k =
        (match lastSet ops k with
         | some v => some v
         | none => dictGet d k) := by
  induction ops with
  | nil =>
    intro d hlen hsize k
    simp [dictRunOk, dictRun, lastSet]
  | cons op rest ih =>
    intro d hlen hsize k
    obtain ⟨k0, v0⟩ := op
    have hstep : dictRunOk d ((k0, v0) :: rest) =
        dictRunOk (dictSet d k0 v0 true).1 rest := by
      simp [dictRunOk, dictRun]
    have hset := dictSet_fields d k0 v0 true
    have hlen' : (dictSet d k0 v0 true).1.entries.length =
        (dictSet d k0 v0 true).1.size := by
      rw [hset.2.2.2, hset.1, hlen]
    have hsize' : 0 < (dictSet d k0 v0 true).1.size := by
      rw [hset.1]; exact hsize
    rw [hstep, ih _ hlen' hsize' k, lastSet]
    cases hls : lastSet rest k with
    | some v => rfl
    | none =>
      by_cases heq : dictIsKeyEqual k0 k = true
      · have hk : k0 = k := (dictIsKeyEqual_iff k0 k).mp heq
        subst hk
        simp only [heq]
        exact dictGet_set_same d k0 v0 hlen hsize
      · have hke : dictIsKeyEqual k0 k = false := by
          cases hb : dictIsKeyEqual k0 k
          · rfl
          · exact absurd hb heq
        have hne : k0 ≠ k := fun h => heq ((dictIsKeyEqual_iff k0 k).mpr h)
        simp only [hke]
        exact dictGet_set_other d k0 k v0 true hlen hsize hne

/-- Claim C6: after any sequence of `dictSet` calls (all entry allocations
succeeding) on a fresh dictionary with a positive bucket count, `dictGet k`
returns the value of the most recent set whose key is byte-equal to `k`,
and `none` when there is no such set. -/
theorem dictGet_most_recent (size : Nat) (fk fv : Bool) (hsize : 0 < size)
    (ops : List (List Nat × Nat)) (k : List Nat) :
    dictGet (dictRunOk (dictNew size fk fv) ops) k = lastSet ops k := by
  have hlen : (dictNew size fk fv).entries.length = (dictNew size fk fv).size := by
    simp [dictNew]
  rw [dictRunOk_get ops (dictNew size fk fv) hlen hsize k]
  cases lastSet ops k with
  | some v => rfl
  | none => exact dictGet_dictNew size fk fv k

/-- Witness for C6: two sets of the key `[1]`, lookup sees the second. -/
theorem dictGet_most_recent_witness :
    dictGet (dictRunOk (dictNew 32 true true) [([1], 5), ([1], 7)]) [1] = some 7 :=
  (dictGet_most_recent 32 true true (by decide) [([1], 5), ([1], 7)] [1]).trans
    (by decide)

/-! ### The uniqueness invariant (C5) -/

/-- In a duplicate-free list, at most one element satisfies `(· == k)`. -/
theorem nodup_countP_le_one (k : List Nat) (l : List (List Nat))
    (h : l.Nodup) : l.countP (fun x => x == k) ≤ 1 := by
  induction l with
  | nil => simp
  | cons x rest ih =>
    rw [List.countP_cons]
    obtain ⟨hx, hrest⟩ := List.nodup_cons.mp h
    by_cases hxk : x = k
    · subst hxk
      have hz : rest.countP (fun y => y == x) = 0 :=
        List.countP_eq_zero.mpr (fun y hy => by
          simp only [beq_iff_eq]
          intro hyx
          exact hx (hyx ▸ hy))
      simp [hz]
    · have : ((x == k) : Bool) = false := by simpa using hxk
      simp only [this]
      simpa using ih hrest

/-- A chain whose key list is duplicate-free holds at most one entry with
a given key. -/
theorem chain_filter_le_one (k : List Nat) (chain : List DictEntry)
    (hnd : (chain.map DictEntry.key).Nodup) :
    (chain.filter (fun e => dictIsKeyEqual e.key k)).length ≤ 1 := by
  have hpred : (fun e : DictEntry => dictIsKeyEqual e.key k) =
      (fun e : DictEntry => e.key == k) :=
    funext (fun e => dictIsKeyEqual_eq_beq e.key k)
  rw [hpred, ← List.countP_eq_length_filter]
  have hmap : (chain.map DictEntry.key).countP (fun x => x == k) =
      chain.countP (fun e => e.key == k) := List.countP_map _ _ _
  rw [← hmap]
  exact nodup_countP_le_one k _ hnd

/-- Mapping inside the buckets does not change the number of flattened
elements. -/
theorem flatten_length_map {α β : Type} (f : α → β) (l : List (List α)) :
    ((l.map (List.map f)).flatten).length = l.flatten.length := by
  induction l with
  | nil => rfl
  | cons b rest ih => simp [List.flatten_cons, ih]

/-- The live-entry count is determined by the per-bucket key lists. -/
theorem dictCount_keys (d : Dictionary) :
    dictCount d = ((d.entries.map (List.map DictEntry.key)).flatten).length := by
  unfold dictCount dictLive
  rw [flatten_length_map]

/-- A fresh dictionary satisfies the representation invariant. -/
theorem dictNew_inv (size : Nat) (fk fv : Bool) :
    DictInv (dictNew size fk fv) := by
  refine ⟨by simp [dictNew], ?_, ?_⟩
  · intro i e he
    rw [show (dictNew size fk fv).entries = List.replicate size [] from rfl,
        getD_replicate] at he
    simp at he
  · intro i
    rw [show (dictNew size fk fv).entries = List.replicate size [] from rfl,
        getD_replicate]
    simp

/-- Operation `dictSet` preserves the representation invariant. -/
theorem dictSet_inv (d : Dictionary) (k : List Nat) (v : Nat) (ok : Bool)
    (hinv : DictInv d) (hsize : 0 < d.size) : DictInv (dictSet d k v ok).1 := by
  obtain ⟨hlen, hhash, hnodup⟩ := hinv
  have hidx : dictHashBytes k d.size < d.entries.length := by
    rw [hlen]; exact Nat.mod_lt _ hsize
  unfold dictSet DictInv
  cases hchain : dictSetChain k v d.free_val
      (d.entries.getD (dictHashBytes k d.size) []) with
  | some p =>
    obtain ⟨c', rel⟩ := p
    simp only [hchain]
    have hkeys := dictSetChain_keys k v d.free_val _ c' rel hchain
    refine ⟨by simpa [List.length_set] using hlen, ?_, ?_⟩
    · intro i e he
      by_cases hieq : i = dictHashBytes k d.size
      · subst hieq
        rw [getD_set_self _ _ _ _ hidx] at he
        have hm : e.key ∈ (d.entries.getD (dictHashBytes k d.size) []).map
            DictEntry.key := by
          rw [← hkeys]; exact List.mem_map_of_mem _ he
        obtain ⟨e0, he0, hkeq⟩ := List.mem_map.mp hm
        have := hhash (dictHashBytes k d.size) e0 he0
        rw [← hkeq]
        exact this
      · rw [getD_set_ne _ _ _ _ _ (fun h => hieq h.symm)] at he
        exact hhash i e he
    · intro i
      by_cases hieq : i = dictHashBytes k d.size
      · subst hieq
        rw [getD_set_self _ _ _ _ hidx, hkeys]
        exact hnodup _
      · rw [getD_set_ne _ _ _ _ _ (fun h => hieq h.symm)]
        exact hnodup i
  | none =>
    cases ok with
    | false =>
      simp only [hchain, Bool.false_eq_true, if_false]
      exact ⟨hlen, hhash, hnodup⟩
    | true =>
      simp only [hchain, if_true]
      refine ⟨by simpa [List.length_set] using hlen, ?_, ?_⟩
      · intro i e he
        by_cases hieq : i = dictHashBytes k d.size
        · subst hieq
          rw [getD_set_self _ _ _ _ hidx] at he
          rcases List.mem_cons.mp he with he | he
          · subst he; rfl
          · exact hhash _ e he
        · rw [getD_set_ne _ _ _ _ _ (fun h => hieq h.symm)] at he
          exact hhash i e he
      · intro i
        by_cases hieq : i = dictHashBytes k d.size
        · subst hieq
          rw [getD_set_self _ _ _ _ hidx]
          rw [List.map_cons]
          refine List.nodup_cons.mpr ⟨?_, hnodup _⟩
          intro hk
          obtain ⟨e0, he0, hkeq⟩ := List.mem_map.mp hk
          exact (dictSetChain_none_iff k v d.free_val _).mp hchain e0 he0 hkeq
        · rw [getD_set_ne _ _ _ _ _ (fun h => hieq h.symm)]
          exact hnodup i

/-- Under the invariant, at most one live entry with a given key exists
across the whole table. -/
theorem dictInv_keyCount (d : Dictionary) (k : List Nat)
    (hinv : DictInv d) (hsize : 0 < d.size) : dictKeyCount d k ≤ 1 := by
  obtain ⟨hlen, hhash, hnodup⟩ := hinv
  unfold dictKeyCount dictLive
  apply filter_flatten_le_one _ _ (dictHashBytes k d.size)
  · intro j hj hne e he
    have hje : e ∈ d.entries.getD j [] := by
      rw [List.getD_eq_getElem _ _ hj]; exact he
    have hj' := hhash j e hje
    cases hb : dictIsKeyEqual e.key k
    · rfl
    · have hk : e.key = k := (dictIsKeyEqual_iff _ _).mp hb
      rw [hk] at hj'
      exact absurd hj'.symm hne
  · intro hidx
    have hnd := hnodup (dictHashBytes k d.size)
    rw [List.getD_eq_getElem _ _ hidx] at hnd
    exact chain_filter_le_one k _ hnd

/-- Operation `dictRun` preserves the representation invariant. -/
theorem dictRun_inv (ops : List (List Nat × Nat × Bool)) :
    ∀ d : Dictionary, DictInv d → 0 < d.size → DictInv (dictRun d ops) := by
  induction ops with
  | nil => intro d hinv _; exact hinv
  | cons op rest ih =>
    intro d hinv hsize
    have hstep : dictRun d (op :: rest) =
        dictRun (dictSet d op.1 op.2.1 op.2.2).1 rest := by
      simp [dictRun]
    rw [hstep]
    exact ih _ (dictSet_inv d op.1 op.2.1 op.2.2 hinv hsize)
      (by rw [(dictSet_fields d op.1 op.2.1 op.2.2).1]; exact hsize)

/-- Setting a key that is already present replaces the value in place:
every bucket keeps exactly its key list. -/
theorem dictSet_overwrite_keys (d : Dictionary) (k : List Nat) (v : Nat)
    (ok : Bool) (hlen : d.entries.length = d.size) (hsize : 0 < d.size)
    (hget : dictGet d k ≠ none) :
    (dictSet d k v ok).1.entries.map (List.map DictEntry.key) =
      d.entries.map (List.map DictEntry.key) := by
  have hidx : dictHashBytes k d.size < d.entries.length := by
    rw [hlen]; exact Nat.mod_lt _ hsize
  obtain ⟨old, hold⟩ := Option.ne_none_iff_exists'.mp hget
  unfold dictGet at hold
  obtain ⟨c', hchain⟩ := dictGetChain_some_set k v old d.free_val _ hold
  unfold dictSet
  simp only [hchain]
  have hkeys := dictSetChain_keys k v d.free_val _ c' _ hchain
  rw [List.map_set, hkeys]
  have hbucket : (d.entries.getD (dictHashBytes k d.size) []).map DictEntry.key
      = (d.entries.map (List.map DictEntry.key)).getD (dictHashBytes k d.size) [] := by
    rw [List.getD_eq_getElem _ _ hidx,
        List.getD_eq_getElem _ _ (by simpa using hidx), List.getElem_map]
  rw [hbucket, set_getD_self _ _ _ (by simpa using hidx)]

/-- Claim C5: after any sequence of `dictSet` calls on a fresh dictionary
with a positive bucket count, at most one live entry with any given
(length, bytes) key exists across all buckets; and a further `dictSet`
whose key is already present leaves the total entry count and every stored
key (bucket by bucket) unchanged. -/
theorem dict_key_uniqueness (size : Nat) (fk fv : Bool) (hsize : 0 < size)
    (ops : List (List Nat × Nat × Bool)) :
    (∀ k, dictKeyCount (dictRun (dictNew size fk fv) ops) k ≤ 1) ∧
    (∀ k v ok, dictGet (dictRun (dictNew size fk fv) ops) k ≠ none →
      dictCount (dictSet (dictRun (dictNew size fk fv) ops) k v ok).1 =
        dictCount (dictRun (dictNew size fk fv) ops) ∧
      (dictSet (dictRun (dictNew size fk fv) ops) k v ok).1.entries.map
          (List.map DictEntry.key) =
        (dictRun (dictNew size fk fv) ops).entries.map
          (List.map DictEntry.key)) := by
  have hsize0 : 0 < (dictNew size fk fv).size := hsize
  have hinv : DictInv (dictRun (dictNew size fk fv) ops) :=
    dictRun_inv ops _ (dictNew_inv size fk fv) hsize0
  have hrsize : (dictRun (dictNew size fk fv) ops).size = size :=
    (dictRun_fields ops _).1
  constructor
  · intro k
    exact dictInv_keyCount _ k hinv (by rw [hrsize]; exact hsize)
  · intro k v ok hget
    have hkeys := dictSet_overwrite_keys _ k v ok hinv.1
      (by rw [hrsize]; exact hsize) hget
    exact ⟨by rw [dictCount_keys, dictCount_keys, hkeys], hkeys⟩

/-- Witness for C5: two sets of the key `[1]`, with a positive bucket
count. -/
theorem dict_key_uniqueness_witness :
    dictKeyCount (dictRun (dictNew 32 true true)
      [([1], 5, true), ([1], 7, true)]) [1] ≤ 1 :=
  (dict_key_uniqueness 32 true true (by decide)
    [([1], 5, true), ([1], 7, true)]).1 [1]

/-! ### Release callbacks (C7) -/

/-- Operation `dictRunOk` preserves bucket count, callback flags and bucket-array
length. -/
theorem dictRunOk_fields (ops : List (List Nat × Nat)) (d : Dictionary) :
    (dictRunOk d ops).size = d.size ∧
    (dictRunOk d ops).free_key = d.free_key ∧
    (dictRunOk d ops).free_val = d.free_val ∧
    (dictRunOk d ops).entries.length = d.entries.length := by
  unfold dictRunOk
  exact dictRun_fields _ d

/-- A `dictSet` that overwrites a present key (value callback set)
releases exactly the superseded value and no key. -/
theorem dictSet_release (d : Dictionary) (k : List Nat) (v old : Nat)
    (ok : Bool) (hfv : d.free_val = true) (hget : dictGet d k = some old) :
    (dictSet d k v ok).2.1 = [] ∧ (dictSet d k v ok).2.2 = [old] := by
  unfold dictGet at hget
  obtain ⟨c', hchain⟩ := dictGetChain_some_set k v old d.free_val _ hget
  unfold dictSet
  simp only [hchain]
  simp [hfv]

/-- Claim C7: on a table built with both release callbacks, `dictFree`
passes to the key callback exactly the keys of the still-live entries (in
bucket order) and to the value callback exactly their values — one call
per live entry, and at most one released key is byte-equal to any given
key; and a `dictSet` that overwrites a present key releases exactly the
superseded value and never a key. -/
theorem dict_release_discipline (size : Nat) (hsize : 0 < size)
    (ops : List (List Nat × Nat)) :
    (dictFree (dictRunOk (dictNew size true true) ops)).1 =
      (dictLive (dictRunOk (dictNew size true true) ops)).map DictEntry.key ∧
    (dictFree (dictRunOk (dictNew size true true) ops)).2 =
      (dictLive (dictRunOk (dictNew size true true) ops)).map DictEntry.val ∧
    (∀ k, ((dictFree (dictRunOk (dictNew size true true) ops)).1.filter
        (fun x => dictIsKeyEqual x k)).length ≤ 1) ∧
    (∀ k v ok old,
      dictGet (dictRunOk (dictNew size true true) ops) k = some old →
      (dictSet (dictRunOk (dictNew size true true) ops) k v ok).2.1 = [] ∧
      (dictSet (dictRunOk (dictNew size true true) ops) k v ok).2.2 = [old]) := by
  have hfields := dictRunOk_fields ops (dictNew size true true)
  have hfk : (dictRunOk (dictNew size true true) ops).free_key = true :=
    hfields.2.1
  have hfv : (dictRunOk (dictNew size true true) ops).free_val = true :=
    hfields.2.2.1
  have hinv : DictInv (dictRunOk (dictNew size true true) ops) := by
    unfold dictRunOk
    exact dictRun_inv _ _ (dictNew_inv size true true) hsize
  have hfree1 : (dictFree (dictRunOk (dictNew size true true) ops)).1 =
      (dictLive (dictRunOk (dictNew size true true) ops)).map DictEntry.key := by
    unfold dictFree dictLive
    rw [hfk]
    simp
  refine ⟨hfree1, ?_, ?_, ?_⟩
  · unfold dictFree dictLive
    rw [hfv]
    simp
  · intro k
    rw [hfree1]
    have hlen : (((dictLive (dictRunOk (dictNew size true true) ops)).map
        DictEntry.key).filter (fun x => dictIsKeyEqual x k)).length =
        dictKeyCount (dictRunOk (dictNew size true true) ops) k := by
      unfold dictKeyCount
      rw [← List.countP_eq_length_filter, ← List.countP_eq_length_filter]
      exact List.countP_map _ _ _
    rw [hlen]
    exact dictInv_keyCount _ k hinv (by rw [hfields.1]; exact hsize)
  · intro k v ok old hget
    exact dictSet_release _ k v old ok hfv hget

/-- Witness for C7: one entry, one overwrite, on a 32-bucket table. -/
theorem dict_release_discipline_witness :
    (dictSet (dictRunOk (dictNew 32 true true) [([2], 9)]) [2] 11 true).2.1
      = [] ∧
    (dictSet (dictRunOk (dictNew 32 true true) [([2], 9)]) [2] 11 true).2.2
      = [9] :=
  (dict_release_discipline 32 (by decide) [([2], 9)]).2.2.2 [2] 11 true 9
    (by decide)

end DU
